import Mathlib

/-!
# Verification of the CV_101 camera / projection model

Shallow embedding of `src/CV_101/camera_nd_obj.py` and the projection part of
`src/CV_101/scene_3d_viewer.py` over exact real arithmetic.  Vectors are
triples of reals; `np.linalg.norm` is `Real.sqrt` of the dot square;
division by zero (numpy's NaN case) is Lean's junk value `0`.
-/

namespace CV101

/-- A 3-vector of reals, mirroring the `np.ndarray` of length 3 used throughout. -/
@[ext]
structure Vec3 where
  x : ℝ
  y : ℝ
  z : ℝ

instance : Add Vec3 := ⟨fun a b => ⟨a.x + b.x, a.y + b.y, a.z + b.z⟩⟩

instance : Sub Vec3 := ⟨fun a b => ⟨a.x - b.x, a.y - b.y, a.z - b.z⟩⟩

instance : Neg Vec3 := ⟨fun a => ⟨-a.x, -a.y, -a.z⟩⟩

instance : SMul ℝ Vec3 := ⟨fun c v => ⟨c * v.x, c * v.y, c * v.z⟩⟩

instance : Zero Vec3 := ⟨⟨0, 0, 0⟩⟩

/-- `np.dot` on 3-vectors (also the sum of squares inside `np.linalg.norm`). -/
def dot (a b : Vec3) : ℝ := a.x * b.x + a.y * b.y + a.z * b.z

/-- `np.cross` on 3-vectors. -/
def cross (a b : Vec3) : Vec3 :=
  ⟨a.y * b.z - a.z * b.y, a.z * b.x - a.x * b.z, a.x * b.y - a.y * b.x⟩

/-- `np.linalg.norm` on 3-vectors. -/
noncomputable def norm (v : Vec3) : ℝ := Real.sqrt (dot v v)

/-- The recurring pattern `v / np.linalg.norm(v)` (elementwise division, a junk
zero vector standing in for numpy's NaN when the norm is zero). -/
noncomputable def normalize (v : Vec3) : Vec3 :=
  ⟨v.x / norm v, v.y / norm v, v.z / norm v⟩

/-!
## The `Camera` class of `camera_nd_obj.py`

Fields `_direction`, `_right` and `_vertices` start as `None` (here `none`);
`_position`, `_up` and `_size` always hold values.
-/

/-- State of the Python `Camera` object. -/
structure Camera where
  position : Vec3
  up : Vec3
  size : ℝ
  direction : Option Vec3
  right : Option Vec3
  vertices : Option (List Vec3)

/-- `Camera.__init__`: stores position, up-hint and size; derived fields are `None`. -/
def Camera.init (position up : Vec3) (size : ℝ) : Camera :=
  { position := position, up := up, size := size,
    direction := none, right := none, vertices := none }

/-- `Camera._update_vertices`: the frustum list `[apex, 4 base corners]`.  In the
source it is only invoked with `_right` and `_direction` set, so the fallthrough
branch (the `None` case, where Python would fault) leaves the state unchanged. -/
noncomputable def updateVertices (c : Camera) : Camera :=
  match c.right, c.direction with
  | some r, some d =>
      { c with vertices := some [c.position,
          c.position + c.size • (-r + d - c.up),
          c.position + c.size • (r + d - c.up),
          c.position + c.size • (r + d + c.up),
          c.position + c.size • (-r + d + c.up)] }
  | _, _ => c

/-- `Camera._update_camera`: returns unchanged when `_direction is None`;
otherwise recomputes `_right` from the current up field, overwrites `_up` with
the re-orthogonalized up, and recomputes the frustum vertices. -/
noncomputable def updateCamera (c : Camera) : Camera :=
  match c.direction with
  | none => c
  | some d =>
      let r := normalize (cross d c.up)
      let u := normalize (cross r d)
      updateVertices { c with right := some r, up := u }

/-- `Camera.look_at`: sets `_direction = (target - position) / norm(...)` and
recomputes the camera frame. -/
noncomputable def lookAt (c : Camera) (target : Vec3) : Camera :=
  updateCamera { c with direction := some (normalize (target - c.position)) }

/-- The `position` property setter: stores the new position, then recomputes. -/
noncomputable def setPosition (c : Camera) (p : Vec3) : Camera :=
  updateCamera { c with position := p }

/-- The `size` property setter: stores the new size, then recomputes. -/
noncomputable def setSize (c : Camera) (s : ℝ) : Camera :=
  updateCamera { c with size := s }

/-- A mutation of the camera through one of its two property setters. -/
inductive CamOp where
  | setPos (p : Vec3)
  | resize (s : ℝ)

/-- Apply one setter. -/
noncomputable def applyOp (c : Camera) : CamOp → Camera
  | .setPos p => setPosition c p
  | .resize s => setSize c s

/-- Apply a sequence of setter mutations, oldest first. -/
noncomputable def applyOps (ops : List CamOp) (c : Camera) : Camera :=
  ops.foldl applyOp c

/-- The frustum vertex list as recomputed by `_update_vertices`. -/
def frustum (pos : Vec3) (size : ℝ) (r d u : Vec3) : List Vec3 :=
  [ pos
  , pos + size • (-r + d - u)
  , pos + size • (r + d - u)
  , pos + size • (r + d + u)
  , pos + size • (-r + d + u) ]

/-- `{direction, right, up}` are pairwise orthogonal unit vectors. -/
def OrthonormalTriple (d r u : Vec3) : Prop :=
  dot d d = 1 ∧ dot r r = 1 ∧ dot u u = 1 ∧
  dot d r = 0 ∧ dot d u = 0 ∧ dot r u = 0

/-- The camera invariant after a successful basis recomputation: direction and
right are set, the triple is orthonormal, and the vertices match the frustum
formula. -/
def GoodState (c : Camera) : Prop :=
  ∃ d r, c.direction = some d ∧ c.right = some r ∧
    OrthonormalTriple d r c.up ∧
    c.vertices = some (frustum c.position c.size r d c.up)

/-!
## The projection pipeline of `scene_3d_viewer.py` (`draw_projected_view`)
-/

/-- A 3×3 matrix stored by rows, as the numpy literals in the source are written. -/
structure Mat3 where
  r1 : Vec3
  r2 : Vec3
  r3 : Vec3

/-- Matrix–vector product (`M @ v`). -/
def Mat3.mulVec (M : Mat3) (v : Vec3) : Vec3 := ⟨dot M.r1 v, dot M.r2 v, dot M.r3 v⟩

/-- `np.column_stack([a, b, c])`: the matrix whose columns are `a`, `b`, `c`. -/
def colStack (a b c : Vec3) : Mat3 :=
  ⟨⟨a.x, b.x, c.x⟩, ⟨a.y, b.y, c.y⟩, ⟨a.z, b.z, c.z⟩⟩

/-- The fixed intrinsics `camera_matrix` of `draw_projected_view`. -/
def cameraMatrix : Mat3 := ⟨⟨800, 0, 320⟩, ⟨0, 800, 240⟩, ⟨0, 0, 1⟩⟩

/-- The per-vertex computation of `draw_projected_view`, as the source performs
it with the camera's `_right`, `_up` and `position` fields: rotation matrix with
columns `[right, up × right, up]`, translation `-R @ position`, depth clamp
`z < 0.1 → z = 0.1`, perspective division, then `camera_matrix`, keeping the
first two components. -/
noncomputable def projectPoint (right up pos vertex : Vec3) : ℝ × ℝ :=
  let rotationMatrix := colStack right (cross up right) up
  let translationVector := -(rotationMatrix.mulVec pos)
  let transformed := rotationMatrix.mulVec vertex + translationVector
  let z := if transformed.z < 1/10 then (1/10 : ℝ) else transformed.z
  let x := transformed.x / z
  let y := transformed.y / z
  let projected := cameraMatrix.mulVec ⟨x, y, 1⟩
  (projected.x, projected.y)

/-- Comparison definition following the words of the specification: build `R`
with columns `[right, up×right, up]` as a Mathlib matrix, set `t = -R·pos`,
transform, clamp the depth from below at `0.1`, divide, apply the pinhole
intrinsics `K = [[800,0,320],[0,800,240],[0,0,1]]` to `(x, y, 1)` and keep the
first two components. -/
noncomputable def specProject (right up pos p : Vec3) : ℝ × ℝ :=
  let R : Matrix (Fin 3) (Fin 3) ℝ :=
    Matrix.of ![![right.x, (cross up right).x, up.x],
                ![right.y, (cross up right).y, up.y],
                ![right.z, (cross up right).z, up.z]]
  let t : Fin 3 → ℝ := fun i => -(R.mulVec ![pos.x, pos.y, pos.z] i)
  let transformed : Fin 3 → ℝ := fun i => R.mulVec ![p.x, p.y, p.z] i + t i
  let z : ℝ := max (1/10) (transformed 2)
  let pixel : Fin 3 → ℝ :=
    (Matrix.of ![![(800 : ℝ), 0, 320], ![0, 800, 240], ![0, 0, 1]]).mulVec
      ![transformed 0 / z, transformed 1 / z, 1]
  (pixel 0, pixel 1)

/-!
## The `Cube` class of `camera_nd_obj.py`
-/

/-- `Cube._update_geometry`: the 8 corner vertices, in source order. -/
def cubeVertices (o : Vec3) (s : ℝ) : List Vec3 :=
  [o + ⟨0, 0, 0⟩, o + ⟨s, 0, 0⟩, o + ⟨0, s, 0⟩, o + ⟨s, s, 0⟩,
   o + ⟨0, 0, s⟩, o + ⟨s, 0, s⟩, o + ⟨0, s, s⟩, o + ⟨s, s, s⟩]

/-- The fixed `edge_indices` list of `Cube._update_geometry`. -/
def cubeEdgeIndices : List (ℕ × ℕ) :=
  [(0, 1), (0, 2), (0, 4), (1, 3), (1, 5), (2, 3),
   (2, 6), (4, 5), (4, 6), (7, 3), (7, 5), (7, 6)]

/-- `Cube._update_geometry`: edges as pairs of endpoint coordinates (not
indices), looked up in the vertex list. -/
def cubeEdges (o : Vec3) (s : ℝ) : List (Vec3 × Vec3) :=
  cubeEdgeIndices.map (fun ij =>
    ((cubeVertices o s).getD ij.1 0, (cubeVertices o s).getD ij.2 0))

/-- An edge displacement of `±s` along exactly one coordinate axis. -/
def IsAxisStep (s : ℝ) (d : Vec3) : Prop :=
  d = ⟨s, 0, 0⟩ ∨ d = ⟨-s, 0, 0⟩ ∨ d = ⟨0, s, 0⟩ ∨ d = ⟨0, -s, 0⟩ ∨
  d = ⟨0, 0, s⟩ ∨ d = ⟨0, 0, -s⟩

/-!
## The `Plane` class of `camera_nd_obj.py`

The grid is modelled as the flattened list of transformed points; the three
reshaped coordinate grids of `_surface` are views of the same data.
-/

/-- A homogeneous 4-vector, one column of the `points` array. -/
@[ext]
structure Vec4 where
  x : ℝ
  y : ℝ
  z : ℝ
  w : ℝ

/-- `np.radians`: degrees to radians. -/
noncomputable def radians (d : ℝ) : ℝ := d * Real.pi / 180

/-- The `Rx` matrix of `_update_geometry` applied to a homogeneous point
(rows `[1,0,0,0], [0,cos,-sin,0], [0,sin,cos,0], [0,0,0,1]`). -/
noncomputable def rotX (a : ℝ) (p : Vec4) : Vec4 :=
  ⟨p.x, Real.cos a * p.y - Real.sin a * p.z, Real.sin a * p.y + Real.cos a * p.z, p.w⟩

/-- The `Ry` matrix (rows `[cos,0,sin,0], [0,1,0,0], [-sin,0,cos,0], [0,0,0,1]`). -/
noncomputable def rotY (a : ℝ) (p : Vec4) : Vec4 :=
  ⟨Real.cos a * p.x + Real.sin a * p.z, p.y, -Real.sin a * p.x + Real.cos a * p.z, p.w⟩

/-- The `Rz` matrix (rows `[cos,-sin,0,0], [sin,cos,0,0], [0,0,1,0], [0,0,0,1]`). -/
noncomputable def rotZ (a : ℝ) (p : Vec4) : Vec4 :=
  ⟨Real.cos a * p.x - Real.sin a * p.y, Real.sin a * p.x + Real.cos a * p.y, p.z, p.w⟩

/-- The translation matrix `T` by the plane center. -/
def translate (c : Vec3) (p : Vec4) : Vec4 :=
  ⟨p.x + c.x * p.w, p.y + c.y * p.w, p.z + c.z * p.w, p.w⟩

/-- `transform = T @ Rz @ Ry @ Rx` applied to one homogeneous grid point,
with rotation angles given in degrees as in the source. -/
noncomputable def planeTransform (center rotation : Vec3) (p : Vec4) : Vec4 :=
  translate center (rotZ (radians rotation.z) (rotY (radians rotation.y)
    (rotX (radians rotation.x) p)))

/-- `np.linspace(a, b, n)` (with endpoint): `a + (b - a) * i / (n - 1)`. -/
noncomputable def linspace (a b : ℝ) (n : ℕ) : List ℝ :=
  (List.range n).map (fun i : ℕ => a + (b - a) * (i : ℝ) / ((n : ℝ) - 1))

/-- `Plane._update_geometry`: the flattened grid of transformed world points.
`meshgrid` pairs every x-sample with every y-sample; rows scan over the
y-samples, as in the flattened numpy arrays. -/
noncomputable def planeSurface (center rotation : Vec3) (scale : ℝ) (n : ℕ) : List Vec3 :=
  (linspace (-scale) scale n).flatMap (fun yv =>
    (linspace (-scale) scale n).map (fun xv =>
      let q := planeTransform center rotation ⟨xv, yv, 0, 1⟩
      (⟨q.x, q.y, q.z⟩ : Vec3)))

@[simp] lemma Vec3.add_x (a b : Vec3) : (a + b).x = a.x + b.x := rfl

@[simp] lemma Vec3.add_y (a b : Vec3) : (a + b).y = a.y + b.y := rfl

@[simp] lemma Vec3.add_z (a b : Vec3) : (a + b).z = a.z + b.z := rfl

@[simp] lemma Vec3.sub_x (a b : Vec3) : (a - b).x = a.x - b.x := rfl

@[simp] lemma Vec3.sub_y (a b : Vec3) : (a - b).y = a.y - b.y := rfl

@[simp] lemma Vec3.sub_z (a b : Vec3) : (a - b).z = a.z - b.z := rfl

@[simp] lemma Vec3.neg_x (a : Vec3) : (-a).x = -a.x := rfl

@[simp] lemma Vec3.neg_y (a : Vec3) : (-a).y = -a.y := rfl

@[simp] lemma Vec3.neg_z (a : Vec3) : (-a).z = -a.z := rfl

@[simp] lemma Vec3.smul_x (c : ℝ) (a : Vec3) : (c • a).x = c * a.x := rfl

@[simp] lemma Vec3.smul_y (c : ℝ) (a : Vec3) : (c • a).y = c * a.y := rfl

@[simp] lemma Vec3.smul_z (c : ℝ) (a : Vec3) : (c • a).z = c * a.z := rfl

@[simp] lemma Vec3.zero_x : (0 : Vec3).x = 0 := rfl

@[simp] lemma Vec3.zero_y : (0 : Vec3).y = 0 := rfl

@[simp] lemma Vec3.zero_z : (0 : Vec3).z = 0 := rfl

@[simp] lemma Vec3.mk_x (a b c : ℝ) : (Vec3.mk a b c).x = a := rfl

@[simp] lemma Vec3.mk_y (a b c : ℝ) : (Vec3.mk a b c).y = b := rfl

@[simp] lemma Vec3.mk_z (a b c : ℝ) : (Vec3.mk a b c).z = c := rfl

lemma dot_comm (a b : Vec3) : dot a b = dot b a := by
  simp only [dot]; ring

lemma dot_self_nonneg (v : Vec3) : 0 ≤ dot v v := by
  have hx := mul_self_nonneg v.x
  have hy := mul_self_nonneg v.y
  have hz := mul_self_nonneg v.z
  simp only [dot]
  linarith

lemma dot_self_eq_zero_iff (v : Vec3) : dot v v = 0 ↔ v = 0 := by
  constructor
  · intro h
    simp only [dot] at h
    ext <;> simp only [Vec3.zero_x, Vec3.zero_y, Vec3.zero_z] <;>
      nlinarith [mul_self_nonneg v.x, mul_self_nonneg v.y, mul_self_nonneg v.z]
  · intro h
    subst h
    simp [dot]

lemma dot_self_pos (v : Vec3) (hv : v ≠ 0) : 0 < dot v v :=
  lt_of_le_of_ne (dot_self_nonneg v) fun h => hv ((dot_self_eq_zero_iff v).mp h.symm)

lemma norm_pos (v : Vec3) (hv : v ≠ 0) : 0 < norm v :=
  Real.sqrt_pos.mpr (dot_self_pos v hv)

lemma norm_sq_eq (v : Vec3) : norm v * norm v = dot v v :=
  Real.mul_self_sqrt (dot_self_nonneg v)

lemma ne_zero_of_dot_self_one (v : Vec3) (h : dot v v = 1) : v ≠ 0 := by
  intro h0
  rw [h0] at h
  simp [dot] at h

/-- Normalizing a nonzero vector yields a unit vector. -/
lemma dot_normalize_self (v : Vec3) (hv : v ≠ 0) :
    dot (normalize v) (normalize v) = 1 := by
  have hq : 0 < dot v v := dot_self_pos v hv
  have hn : 0 < norm v := norm_pos v hv
  have : dot (normalize v) (normalize v) = dot v v / (norm v * norm v) := by
    simp only [dot, normalize]
    field_simp
  rw [this, norm_sq_eq]
  exact div_self hq.ne'

/-- Normalizing a vector that is already unit length leaves it unchanged. -/
lemma normalize_of_unit (v : Vec3) (h : dot v v = 1) : normalize v = v := by
  have : norm v = 1 := by rw [norm, h, Real.sqrt_one]
  ext <;> simp [normalize, this]

lemma normalize_zero : normalize 0 = 0 := by
  ext <;> simp [normalize]

lemma dot_normalize_left (v a : Vec3) : dot (normalize v) a = dot v a / norm v := by
  simp only [dot, normalize]
  ring

lemma dot_normalize_right (a v : Vec3) : dot a (normalize v) = dot a v / norm v := by
  simp only [dot, normalize]
  ring

lemma cross_normalize_left (v u : Vec3) :
    cross (normalize v) u = ⟨(cross v u).x / norm v, (cross v u).y / norm v,
      (cross v u).z / norm v⟩ := by
  ext <;> simp [cross, normalize] <;> ring

lemma cross_normalize_left_ne_zero (v u : Vec3) (hv : v ≠ 0) (h : cross v u ≠ 0) :
    cross (normalize v) u ≠ 0 := by
  rw [cross_normalize_left]
  intro hc
  apply h
  have hn : norm v ≠ 0 := (norm_pos v hv).ne'
  have hx := congrArg Vec3.x hc
  have hy := congrArg Vec3.y hc
  have hz := congrArg Vec3.z hc
  simp only [Vec3.mk_x, Vec3.mk_y, Vec3.mk_z, Vec3.zero_x, Vec3.zero_y, Vec3.zero_z,
    div_eq_zero_iff] at hx hy hz
  ext
  · rcases hx with h' | h'
    · simpa using h'
    · exact absurd h' hn
  · rcases hy with h' | h'
    · simpa using h'
    · exact absurd h' hn
  · rcases hz with h' | h'
    · simpa using h'
    · exact absurd h' hn

/-- The scalar triple product with a repeated first argument vanishes. -/
lemma dot_cross_self_left (a b : Vec3) : dot a (cross a b) = 0 := by
  simp only [dot, cross, Vec3.mk_x, Vec3.mk_y, Vec3.mk_z]
  ring

/-- The scalar triple product with a repeated second argument vanishes. -/
lemma dot_cross_self_right (a b : Vec3) : dot b (cross a b) = 0 := by
  simp only [dot, cross, Vec3.mk_x, Vec3.mk_y, Vec3.mk_z]
  ring

/-- Lagrange identity for the cross product on 3-vectors. -/
lemma dot_cross_self (a b : Vec3) :
    dot (cross a b) (cross a b) = dot a a * dot b b - dot a b * dot a b := by
  simp only [dot, cross, Vec3.mk_x, Vec3.mk_y, Vec3.mk_z]
  ring

/-- Double cross with a repeated, unit, orthogonal factor flips the sign. -/
lemma cross_cross_self (r d : Vec3) (h1 : dot r d = 0) (h2 : dot r r = 1) :
    cross r (cross r d) = -d := by
  have hx : r.x * d.x + r.y * d.y + r.z * d.z = 0 := h1
  have hr : r.x * r.x + r.y * r.y + r.z * r.z = 1 := h2
  ext <;> simp only [cross, Vec3.mk_x, Vec3.mk_y, Vec3.mk_z, Vec3.neg_x, Vec3.neg_y,
    Vec3.neg_z]
  · linear_combination r.x * hx - d.x * hr
  · linear_combination r.y * hx - d.y * hr
  · linear_combination r.z * hx - d.z * hr

lemma cross_anticomm (a b : Vec3) : cross a b = -(cross b a) := by
  ext <;> simp [cross] <;> ring

lemma updateVertices_of_some (c : Camera) (r d : Vec3)
    (hr : c.right = some r) (hd : c.direction = some d) :
    updateVertices c = { c with vertices := some (frustum c.position c.size r d c.up) } := by
  rw [updateVertices, hr, hd]
  rfl

/-- Core recomputation lemma: if `_direction` holds a unit vector that is not
parallel to the current up field, `_update_camera` establishes the invariant. -/
lemma updateCamera_good (c : Camera) (d : Vec3) (hd : c.direction = some d)
    (hdd : dot d d = 1) (hc : cross d c.up ≠ 0) : GoodState (updateCamera c) := by
  have hrw : updateCamera c =
      updateVertices { c with
        right := some (normalize (cross d c.up)),
        up := normalize (cross (normalize (cross d c.up)) d) } := by
    rw [updateCamera, hd]
  set r := normalize (cross d c.up) with hr_def
  set u := normalize (cross r d) with hu_def
  have hrr : dot r r = 1 := dot_normalize_self _ hc
  have hrd : dot r d = 0 := by
    rw [hr_def, dot_normalize_left, dot_comm, dot_cross_self_left, zero_div]
  have hcrd_unit : dot (cross r d) (cross r d) = 1 := by
    rw [dot_cross_self, hrr, hdd, hrd]
    ring
  have hcrd_ne : cross r d ≠ 0 := ne_zero_of_dot_self_one _ hcrd_unit
  have huu : dot u u = 1 := dot_normalize_self _ hcrd_ne
  have hdu : dot d u = 0 := by
    rw [hu_def, dot_normalize_right, dot_cross_self_right, zero_div]
  have hru : dot r u = 0 := by
    rw [hu_def, dot_normalize_right, dot_cross_self_left, zero_div]
  rw [hrw, updateVertices_of_some ({ c with right := some r, up := u }) r d rfl hd]
  exact ⟨d, r, hd, rfl, ⟨hdd, hrr, huu, by rw [dot_comm]; exact hrd, hdu, hru⟩, rfl⟩

/-- `look_at` with a non-degenerate target establishes the camera invariant. -/
lemma lookAt_good (c : Camera) (target : Vec3)
    (h1 : target - c.position ≠ 0)
    (h2 : cross (target - c.position) c.up ≠ 0) :
    GoodState (lookAt c target) := by
  apply updateCamera_good _ (normalize (target - c.position)) rfl
  · exact dot_normalize_self _ h1
  · exact cross_normalize_left_ne_zero _ _ h1 h2

/-- Each property setter preserves the camera invariant. -/
lemma applyOp_good (c : Camera) (op : CamOp) (h : GoodState c) :
    GoodState (applyOp c op) := by
  obtain ⟨d, r, hd, hr, ⟨hdd, hrr, huu, hdr, hdu, hru⟩, hv⟩ := h
  have hcross : cross d c.up ≠ 0 := by
    apply ne_zero_of_dot_self_one
    rw [dot_cross_self, hdd, huu, hdu]
    ring
  cases op with
  | setPos p => exact updateCamera_good _ d hd hdd hcross
  | resize s => exact updateCamera_good _ d hd hdd hcross

/-- Any sequence of setter mutations preserves the camera invariant. -/
lemma applyOps_good (ops : List CamOp) (c : Camera) (h : GoodState c) :
    GoodState (applyOps ops c) := by
  induction ops generalizing c with
  | nil => exact h
  | cons op ops ih => exact ih _ (applyOp_good c op h)

@[simp] lemma Camera.init_position (p u : Vec3) (s : ℝ) : (Camera.init p u s).position = p := rfl

@[simp] lemma Camera.init_up (p u : Vec3) (s : ℝ) : (Camera.init p u s).up = u := rfl

@[simp] lemma Camera.init_size (p u : Vec3) (s : ℝ) : (Camera.init p u s).size = s := rfl

lemma lookAt_direction (c : Camera) (t : Vec3) :
    (lookAt c t).direction = some (normalize (t - c.position)) := rfl

lemma lookAt_right (c : Camera) (t : Vec3) :
    (lookAt c t).right = some (normalize (cross (normalize (t - c.position)) c.up)) := rfl

lemma lookAt_up (c : Camera) (t : Vec3) :
    (lookAt c t).up =
      normalize (cross (normalize (cross (normalize (t - c.position)) c.up))
        (normalize (t - c.position))) := rfl

lemma lookAt_position (c : Camera) (t : Vec3) : (lookAt c t).position = c.position := rfl

lemma vsub_self (v : Vec3) : v - v = 0 := by
  ext <;> simp

lemma cross_zero_left (v : Vec3) : cross 0 v = 0 := by
  ext <;> simp [cross]

lemma cross_zero_right (v : Vec3) : cross v 0 = 0 := by
  ext <;> simp [cross]

lemma vneg_neg (v : Vec3) : -(-v) = v := by
  ext <;> simp

/-- The exact basis produced by a non-degenerate `look_at`: the stored up field
is literally `cross right direction`, and the three vectors are unit length with
`right ⊥ direction`. -/
lemma lookAt_basis (c : Camera) (target : Vec3)
    (h1 : target - c.position ≠ 0)
    (h2 : cross (target - c.position) c.up ≠ 0) :
    ∃ d r, (lookAt c target).direction = some d ∧ (lookAt c target).right = some r ∧
      (lookAt c target).up = cross r d ∧
      dot d d = 1 ∧ dot r r = 1 ∧ dot r d = 0 := by
  refine ⟨normalize (target - c.position),
    normalize (cross (normalize (target - c.position)) c.up), rfl, rfl, ?_, ?_, ?_, ?_⟩
  · set d := normalize (target - c.position) with hd_def
    set r := normalize (cross d c.up) with hr_def
    have hcdu : cross d c.up ≠ 0 := cross_normalize_left_ne_zero _ _ h1 h2
    have hdd : dot d d = 1 := dot_normalize_self _ h1
    have hrr : dot r r = 1 := dot_normalize_self _ hcdu
    have hrd : dot r d = 0 := by
      rw [hr_def, dot_normalize_left, dot_comm, dot_cross_self_left, zero_div]
    have hunit : dot (cross r d) (cross r d) = 1 := by
      rw [dot_cross_self, hrr, hdd, hrd]
      ring
    rw [lookAt_up]
    exact normalize_of_unit _ hunit
  · exact dot_normalize_self _ h1
  · exact dot_normalize_self _ (cross_normalize_left_ne_zero _ _ h1 h2)
  · rw [dot_normalize_left, dot_comm, dot_cross_self_left, zero_div]

/-- C1: after a `look_at` on a non-degenerate pair (target distinct from the
position, direction not parallel to the up-hint), the derived `right`, `up` and
`direction` vectors are pairwise orthogonal unit vectors, and this orthonormality
is preserved by every subsequent sequence of `position` / `size` setter calls,
with `direction` remaining defined throughout. -/
theorem lookAt_orthonormal_preserved (c : Camera) (target : Vec3) (ops : List CamOp)
    (h1 : target - c.position ≠ 0)
    (h2 : cross (target - c.position) c.up ≠ 0) :
    ∃ d r, (applyOps ops (lookAt c target)).direction = some d ∧
      (applyOps ops (lookAt c target)).right = some r ∧
      OrthonormalTriple d r (applyOps ops (lookAt c target)).up := by
  obtain ⟨d, r, hd, hr, ht, _⟩ := applyOps_good ops _ (lookAt_good c target h1 h2)
  exact ⟨d, r, hd, hr, ht⟩

theorem lookAt_orthonormal_preserved_witness :
    ((⟨1, 0, 0⟩ : Vec3) - (Camera.init ⟨0, 0, 0⟩ ⟨0, 0, 1⟩ 1).position ≠ 0) ∧
    (cross ((⟨1, 0, 0⟩ : Vec3) - (Camera.init ⟨0, 0, 0⟩ ⟨0, 0, 1⟩ 1).position)
        (Camera.init ⟨0, 0, 0⟩ ⟨0, 0, 1⟩ 1).up ≠ 0) ∧
    (∃ d r,
      (applyOps [CamOp.setPos ⟨0, 2, 0⟩, CamOp.resize 2]
        (lookAt (Camera.init ⟨0, 0, 0⟩ ⟨0, 0, 1⟩ 1) ⟨1, 0, 0⟩)).direction = some d ∧
      (applyOps [CamOp.setPos ⟨0, 2, 0⟩, CamOp.resize 2]
        (lookAt (Camera.init ⟨0, 0, 0⟩ ⟨0, 0, 1⟩ 1) ⟨1, 0, 0⟩)).right = some r ∧
      OrthonormalTriple d r
        (applyOps [CamOp.setPos ⟨0, 2, 0⟩, CamOp.resize 2]
          (lookAt (Camera.init ⟨0, 0, 0⟩ ⟨0, 0, 1⟩ 1) ⟨1, 0, 0⟩)).up) := by
  have h1 : (⟨1, 0, 0⟩ : Vec3) - (Camera.init ⟨0, 0, 0⟩ ⟨0, 0, 1⟩ 1).position ≠ 0 := by
    simp [Vec3.ext_iff]
  have h2 : cross ((⟨1, 0, 0⟩ : Vec3) - (Camera.init ⟨0, 0, 0⟩ ⟨0, 0, 1⟩ 1).position)
      (Camera.init ⟨0, 0, 0⟩ ⟨0, 0, 1⟩ 1).up ≠ 0 := by
    simp [cross, Vec3.ext_iff]
  exact ⟨h1, h2, lookAt_orthonormal_preserved _ _ [CamOp.setPos ⟨0, 2, 0⟩, CamOp.resize 2] h1 h2⟩

/-- C7: for a camera whose direction is defined (obtained by a non-degenerate
`look_at` followed by any sequence of setter mutations), the frustum vertex list
has exactly 5 entries, the first equals the camera position, and the remaining
four are `position + size • (±right + direction ± up)` in the sign order
`(-,-), (+,-), (+,+), (-,+)`. -/
theorem frustum_vertices_shape (c : Camera) (target : Vec3) (ops : List CamOp)
    (h1 : target - c.position ≠ 0)
    (h2 : cross (target - c.position) c.up ≠ 0) :
    ∃ d r v, (applyOps ops (lookAt c target)).direction = some d ∧
      (applyOps ops (lookAt c target)).right = some r ∧
      (applyOps ops (lookAt c target)).vertices = some v ∧
      v.length = 5 ∧
      v.head? = some (applyOps ops (lookAt c target)).position ∧
      v = [(applyOps ops (lookAt c target)).position,
           (applyOps ops (lookAt c target)).position +
             (applyOps ops (lookAt c target)).size •
               (-r + d - (applyOps ops (lookAt c target)).up),
           (applyOps ops (lookAt c target)).position +
             (applyOps ops (lookAt c target)).size •
               (r + d - (applyOps ops (lookAt c target)).up),
           (applyOps ops (lookAt c target)).position +
             (applyOps ops (lookAt c target)).size •
               (r + d + (applyOps ops (lookAt c target)).up),
           (applyOps ops (lookAt c target)).position +
             (applyOps ops (lookAt c target)).size •
               (-r + d + (applyOps ops (lookAt c target)).up)] := by
  obtain ⟨d, r, hd, hr, _, hv⟩ := applyOps_good ops _ (lookAt_good c target h1 h2)
  exact ⟨d, r, _, hd, hr, hv, rfl, rfl, rfl⟩

theorem frustum_vertices_shape_witness :
    ((⟨5, 0, 0⟩ : Vec3) - (Camera.init ⟨0, 0, 0⟩ ⟨0, 0, 1⟩ (3/10)).position ≠ 0) ∧
    (cross ((⟨5, 0, 0⟩ : Vec3) - (Camera.init ⟨0, 0, 0⟩ ⟨0, 0, 1⟩ (3/10)).position)
        (Camera.init ⟨0, 0, 0⟩ ⟨0, 0, 1⟩ (3/10)).up ≠ 0) ∧
    (∃ d r v, (applyOps [] (lookAt (Camera.init ⟨0, 0, 0⟩ ⟨0, 0, 1⟩ (3/10)) ⟨5, 0, 0⟩)).direction
        = some d ∧
      (applyOps [] (lookAt (Camera.init ⟨0, 0, 0⟩ ⟨0, 0, 1⟩ (3/10)) ⟨5, 0, 0⟩)).right = some r ∧
      (applyOps [] (lookAt (Camera.init ⟨0, 0, 0⟩ ⟨0, 0, 1⟩ (3/10)) ⟨5, 0, 0⟩)).vertices = some v ∧
      v.length = 5 ∧
      v.head? = some (applyOps [] (lookAt (Camera.init ⟨0, 0, 0⟩ ⟨0, 0, 1⟩ (3/10)) ⟨5, 0, 0⟩)).position ∧
      v = [(applyOps [] (lookAt (Camera.init ⟨0, 0, 0⟩ ⟨0, 0, 1⟩ (3/10)) ⟨5, 0, 0⟩)).position,
           (applyOps [] (lookAt (Camera.init ⟨0, 0, 0⟩ ⟨0, 0, 1⟩ (3/10)) ⟨5, 0, 0⟩)).position +
             (applyOps [] (lookAt (Camera.init ⟨0, 0, 0⟩ ⟨0, 0, 1⟩ (3/10)) ⟨5, 0, 0⟩)).size •
               (-r + d - (applyOps [] (lookAt (Camera.init ⟨0, 0, 0⟩ ⟨0, 0, 1⟩ (3/10)) ⟨5, 0, 0⟩)).up),
           (applyOps [] (lookAt (Camera.init ⟨0, 0, 0⟩ ⟨0, 0, 1⟩ (3/10)) ⟨5, 0, 0⟩)).position +
             (applyOps [] (lookAt (Camera.init ⟨0, 0, 0⟩ ⟨0, 0, 1⟩ (3/10)) ⟨5, 0, 0⟩)).size •
               (r + d - (applyOps [] (lookAt (Camera.init ⟨0, 0, 0⟩ ⟨0, 0, 1⟩ (3/10)) ⟨5, 0, 0⟩)).up),
           (applyOps [] (lookAt (Camera.init ⟨0, 0, 0⟩ ⟨0, 0, 1⟩ (3/10)) ⟨5, 0, 0⟩)).position +
             (applyOps [] (lookAt (Camera.init ⟨0, 0, 0⟩ ⟨0, 0, 1⟩ (3/10)) ⟨5, 0, 0⟩)).size •
               (r + d + (applyOps [] (lookAt (Camera.init ⟨0, 0, 0⟩ ⟨0, 0, 1⟩ (3/10)) ⟨5, 0, 0⟩)).up),
           (applyOps [] (lookAt (Camera.init ⟨0, 0, 0⟩ ⟨0, 0, 1⟩ (3/10)) ⟨5, 0, 0⟩)).position +
             (applyOps [] (lookAt (Camera.init ⟨0, 0, 0⟩ ⟨0, 0, 1⟩ (3/10)) ⟨5, 0, 0⟩)).size •
               (-r + d + (applyOps [] (lookAt (Camera.init ⟨0, 0, 0⟩ ⟨0, 0, 1⟩ (3/10)) ⟨5, 0, 0⟩)).up)]) := by
  have h1 : (⟨5, 0, 0⟩ : Vec3) - (Camera.init ⟨0, 0, 0⟩ ⟨0, 0, 1⟩ (3/10)).position ≠ 0 := by
    simp [Vec3.ext_iff]
  have h2 : cross ((⟨5, 0, 0⟩ : Vec3) - (Camera.init ⟨0, 0, 0⟩ ⟨0, 0, 1⟩ (3/10)).position)
      (Camera.init ⟨0, 0, 0⟩ ⟨0, 0, 1⟩ (3/10)).up ≠ 0 := by
    simp [cross, Vec3.ext_iff]
  exact ⟨h1, h2, frustum_vertices_shape _ _ [] h1 h2⟩

/-- C2 (amended): for every non-degenerate input the basis from `look_at`
satisfies `right × up = -direction` (the claimed `right × up = direction` is
false; equivalently, `up × right = direction`). -/
theorem lookAt_cross_right_up (c : Camera) (target : Vec3)
    (h1 : target - c.position ≠ 0)
    (h2 : cross (target - c.position) c.up ≠ 0) :
    ∃ d r, (lookAt c target).direction = some d ∧ (lookAt c target).right = some r ∧
      cross r (lookAt c target).up = -d ∧ cross (lookAt c target).up r = d := by
  obtain ⟨d, r, hd, hr, hu, hdd, hrr, hrd⟩ := lookAt_basis c target h1 h2
  refine ⟨d, r, hd, hr, ?_, ?_⟩
  · rw [hu]
    exact cross_cross_self r d hrd hrr
  · rw [hu, cross_anticomm, cross_cross_self r d hrd hrr, vneg_neg]

theorem lookAt_cross_right_up_witness :
    ((⟨0, 7, 0⟩ : Vec3) - (Camera.init ⟨0, 0, 0⟩ ⟨0, 0, 1⟩ 1).position ≠ 0) ∧
    (cross ((⟨0, 7, 0⟩ : Vec3) - (Camera.init ⟨0, 0, 0⟩ ⟨0, 0, 1⟩ 1).position)
        (Camera.init ⟨0, 0, 0⟩ ⟨0, 0, 1⟩ 1).up ≠ 0) ∧
    (∃ d r, (lookAt (Camera.init ⟨0, 0, 0⟩ ⟨0, 0, 1⟩ 1) ⟨0, 7, 0⟩).direction = some d ∧
      (lookAt (Camera.init ⟨0, 0, 0⟩ ⟨0, 0, 1⟩ 1) ⟨0, 7, 0⟩).right = some r ∧
      cross r (lookAt (Camera.init ⟨0, 0, 0⟩ ⟨0, 0, 1⟩ 1) ⟨0, 7, 0⟩).up = -d ∧
      cross (lookAt (Camera.init ⟨0, 0, 0⟩ ⟨0, 0, 1⟩ 1) ⟨0, 7, 0⟩).up r = d) := by
  have h1 : (⟨0, 7, 0⟩ : Vec3) - (Camera.init ⟨0, 0, 0⟩ ⟨0, 0, 1⟩ 1).position ≠ 0 := by
    simp [Vec3.ext_iff]
  have h2 : cross ((⟨0, 7, 0⟩ : Vec3) - (Camera.init ⟨0, 0, 0⟩ ⟨0, 0, 1⟩ 1).position)
      (Camera.init ⟨0, 0, 0⟩ ⟨0, 0, 1⟩ 1).up ≠ 0 := by
    simp [cross, Vec3.ext_iff]
  exact ⟨h1, h2, lookAt_cross_right_up _ _ h1 h2⟩

/-- The concretely evaluated basis of the camera at the origin looking along the
positive x-axis with up-hint `(0, 0, 1)`. -/
lemma demoCam_fields :
    (lookAt (Camera.init ⟨0, 0, 0⟩ ⟨0, 0, 1⟩ 1) ⟨1, 0, 0⟩).direction = some ⟨1, 0, 0⟩ ∧
    (lookAt (Camera.init ⟨0, 0, 0⟩ ⟨0, 0, 1⟩ 1) ⟨1, 0, 0⟩).right = some ⟨0, -1, 0⟩ ∧
    (lookAt (Camera.init ⟨0, 0, 0⟩ ⟨0, 0, 1⟩ 1) ⟨1, 0, 0⟩).up = ⟨0, 0, 1⟩ ∧
    (lookAt (Camera.init ⟨0, 0, 0⟩ ⟨0, 0, 1⟩ 1) ⟨1, 0, 0⟩).position = ⟨0, 0, 0⟩ := by
  have hsub : (⟨1, 0, 0⟩ : Vec3) - (Camera.init ⟨0, 0, 0⟩ ⟨0, 0, 1⟩ 1).position = ⟨1, 0, 0⟩ := by
    ext <;> simp
  have hd : normalize ⟨1, 0, 0⟩ = ⟨1, 0, 0⟩ := normalize_of_unit _ (by norm_num [dot])
  have hc1 : cross (⟨1, 0, 0⟩ : Vec3) (Camera.init ⟨0, 0, 0⟩ ⟨0, 0, 1⟩ 1).up = ⟨0, -1, 0⟩ := by
    ext <;> simp [cross]
  have hr : normalize ⟨0, -1, 0⟩ = ⟨0, -1, 0⟩ := normalize_of_unit _ (by norm_num [dot])
  have hc2 : cross (⟨0, -1, 0⟩ : Vec3) ⟨1, 0, 0⟩ = ⟨0, 0, 1⟩ := by
    ext <;> simp [cross]
  have hu : normalize ⟨0, 0, 1⟩ = ⟨0, 0, 1⟩ := normalize_of_unit _ (by norm_num [dot])
  refine ⟨?_, ?_, ?_, rfl⟩
  · rw [lookAt_direction, hsub, hd]
  · rw [lookAt_right, hsub, hd, hc1, hr]
  · rw [lookAt_up, hsub, hd, hc1, hr, hc2, hu]

/-- C2 (counterexample): for the camera at the origin looking at `(1, 0, 0)`
with up-hint `(0, 0, 1)`, the derived basis has `right × up = (-1, 0, 0)`,
which is not the direction `(1, 0, 0)`: the basis is not right-handed in the
claimed convention. -/
theorem lookAt_not_right_handed :
    (lookAt (Camera.init ⟨0, 0, 0⟩ ⟨0, 0, 1⟩ 1) ⟨1, 0, 0⟩).direction = some ⟨1, 0, 0⟩ ∧
    (lookAt (Camera.init ⟨0, 0, 0⟩ ⟨0, 0, 1⟩ 1) ⟨1, 0, 0⟩).right = some ⟨0, -1, 0⟩ ∧
    (lookAt (Camera.init ⟨0, 0, 0⟩ ⟨0, 0, 1⟩ 1) ⟨1, 0, 0⟩).up = ⟨0, 0, 1⟩ ∧
    cross ⟨0, -1, 0⟩ (⟨0, 0, 1⟩ : Vec3) = ⟨-1, 0, 0⟩ ∧
    (⟨-1, 0, 0⟩ : Vec3) ≠ ⟨1, 0, 0⟩ := by
  obtain ⟨hd, hr, hu, _⟩ := demoCam_fields
  refine ⟨hd, hr, hu, by ext <;> simp [cross], ?_⟩
  intro h
  have := congrArg Vec3.x h
  norm_num at this

/-- C4 (code evaluation): `look_at` with the target equal to the camera position
raises no error; it performs the zero-norm division (numpy: `0/0 = NaN`, here the
junk value `0`) and stores a degenerate zero direction, zero right vector and
zero up vector — no `DegenerateDirection` failure exists in the code. -/
theorem lookAt_self_target_silently_degenerates :
    (lookAt (Camera.init ⟨2, -4, 2⟩ ⟨0, 0, 1⟩ (3/10)) ⟨2, -4, 2⟩).direction = some 0 ∧
    (lookAt (Camera.init ⟨2, -4, 2⟩ ⟨0, 0, 1⟩ (3/10)) ⟨2, -4, 2⟩).right = some 0 ∧
    (lookAt (Camera.init ⟨2, -4, 2⟩ ⟨0, 0, 1⟩ (3/10)) ⟨2, -4, 2⟩).up = 0 ∧
    dot (0 : Vec3) (0 : Vec3) ≠ 1 := by
  refine ⟨?_, ?_, ?_, by norm_num [dot]⟩
  · simp [lookAt_direction, Camera.init, vsub_self, normalize_zero]
  · simp [lookAt_right, Camera.init, vsub_self, normalize_zero, cross_zero_left]
  · simp [lookAt_up, Camera.init, vsub_self, normalize_zero, cross_zero_left, cross_zero_right]

/-- C5 (code evaluation): `look_at` toward a target straight along the up-hint
(direction parallel to up) raises no error; `np.cross(direction, up)` is the
zero vector and the subsequent zero-norm division stores a degenerate zero
right vector (numpy: NaN) and zero up — no `DegenerateBasis` failure exists in
the code. -/
theorem lookAt_parallel_up_silently_degenerates :
    (lookAt (Camera.init ⟨0, 0, 0⟩ ⟨0, 0, 1⟩ 1) ⟨0, 0, 3⟩).direction = some ⟨0, 0, 1⟩ ∧
    (lookAt (Camera.init ⟨0, 0, 0⟩ ⟨0, 0, 1⟩ 1) ⟨0, 0, 3⟩).right = some 0 ∧
    (lookAt (Camera.init ⟨0, 0, 0⟩ ⟨0, 0, 1⟩ 1) ⟨0, 0, 3⟩).up = 0 ∧
    dot (0 : Vec3) (0 : Vec3) ≠ 1 := by
  have hsub : (⟨0, 0, 3⟩ : Vec3) - (Camera.init ⟨0, 0, 0⟩ ⟨0, 0, 1⟩ 1).position = ⟨0, 0, 3⟩ := by
    ext <;> simp
  have hdot : dot (⟨0, 0, 3⟩ : Vec3) ⟨0, 0, 3⟩ = 9 := by norm_num [dot]
  have hnorm : norm (⟨0, 0, 3⟩ : Vec3) = 3 := by
    rw [norm, hdot, show (9 : ℝ) = 3 ^ 2 by norm_num, Real.sqrt_sq (by norm_num : (0:ℝ) ≤ 3)]
  have hd : normalize (⟨0, 0, 3⟩ : Vec3) = ⟨0, 0, 1⟩ := by
    ext <;> simp [normalize, hnorm]
  have hc : cross (⟨0, 0, 1⟩ : Vec3) (Camera.init ⟨0, 0, 0⟩ ⟨0, 0, 1⟩ 1).up = 0 := by
    ext <;> simp [cross]
  refine ⟨?_, ?_, ?_, by norm_num [dot]⟩
  · rw [lookAt_direction, hsub, hd]
  · rw [lookAt_right, hsub, hd, hc, normalize_zero]
  · rw [lookAt_up, hsub, hd, hc, normalize_zero, cross_zero_left, normalize_zero]

/-- C6 (code evaluation): a failing update does not leave the camera in its
last-valid state.  Starting from a valid camera (direction `(1,0,0)`, up
`(0,0,1)`), calling `look_at` with the target equal to the current position
overwrites `_direction` and `_up` with degenerate zero vectors (numpy: NaN):
the previous valid state is destroyed, not preserved. -/
theorem failed_lookAt_overwrites_state :
    (lookAt (Camera.init ⟨0, 0, 0⟩ ⟨0, 0, 1⟩ 1) ⟨1, 0, 0⟩).position = ⟨0, 0, 0⟩ ∧
    (lookAt (Camera.init ⟨0, 0, 0⟩ ⟨0, 0, 1⟩ 1) ⟨1, 0, 0⟩).direction = some ⟨1, 0, 0⟩ ∧
    (lookAt (Camera.init ⟨0, 0, 0⟩ ⟨0, 0, 1⟩ 1) ⟨1, 0, 0⟩).up = ⟨0, 0, 1⟩ ∧
    (lookAt (lookAt (Camera.init ⟨0, 0, 0⟩ ⟨0, 0, 1⟩ 1) ⟨1, 0, 0⟩) ⟨0, 0, 0⟩).direction
      = some 0 ∧
    (lookAt (lookAt (Camera.init ⟨0, 0, 0⟩ ⟨0, 0, 1⟩ 1) ⟨1, 0, 0⟩) ⟨0, 0, 0⟩).up = 0 ∧
    some (0 : Vec3) ≠ some (⟨1, 0, 0⟩ : Vec3) ∧
    (0 : Vec3) ≠ ⟨0, 0, 1⟩ := by
  obtain ⟨hd0, _, hu0, hp0⟩ := demoCam_fields
  refine ⟨hp0, hd0, hu0, ?_, ?_, ?_, ?_⟩
  · rw [lookAt_direction, hp0, vsub_self, normalize_zero]
  · rw [lookAt_up, hp0, vsub_self, normalize_zero, cross_zero_left, normalize_zero,
      cross_zero_left, normalize_zero]
  · intro h
    have := congrArg Vec3.x (Option.some.injEq _ _ ▸ h : (0 : Vec3) = ⟨1, 0, 0⟩)
    norm_num at this
  · intro h
    have := congrArg Vec3.z h
    norm_num at this

/-- C3: the projection pipeline computes, for every world point, exactly the
pixel described by the specification: rotation with columns
`[right, up×right, up]`, `t = -R·position`, depth clamped up to `0.1` when
below it (raising no error), perspective division, fixed intrinsics, first two
components kept. -/
theorem projectPoint_eq_spec (right up pos vertex : Vec3) :
    projectPoint right up pos vertex = specProject right up pos vertex := by
  have hif : ∀ a : ℝ, (if a < 1/10 then (1/10 : ℝ) else a) = max (1/10) a := by
    intro a
    rcases lt_or_le a (1/10) with h | h
    · rw [if_pos h, max_eq_left h.le]
    · rw [if_neg (not_lt.mpr h), max_eq_right h]
  unfold projectPoint specProject
  simp only [Mat3.mulVec, colStack, cameraMatrix, dot, Matrix.mulVec, Matrix.dotProduct,
    Fin.sum_univ_three, Matrix.of_apply, Matrix.cons_val_zero, Matrix.cons_val_one,
    Matrix.head_cons, Matrix.cons_val_two, Matrix.tail_cons, Vec3.mk_x, Vec3.mk_y, Vec3.mk_z,
    Vec3.add_x, Vec3.add_y, Vec3.add_z, Vec3.neg_x, Vec3.neg_y, Vec3.neg_z, hif,
    Prod.mk.injEq]

/-- C10: with exact arithmetic, the middle column `up × right` of the rotation
matrix built by `draw_projected_view` equals the camera direction, so that
matrix coincides with the matrix whose columns are `[right, direction, up]`. -/
theorem projection_middle_column_is_direction (c : Camera) (target : Vec3)
    (h1 : target - c.position ≠ 0)
    (h2 : cross (target - c.position) c.up ≠ 0) :
    ∃ d r, (lookAt c target).direction = some d ∧ (lookAt c target).right = some r ∧
      cross (lookAt c target).up r = d ∧
      colStack r (cross (lookAt c target).up r) (lookAt c target).up =
        colStack r d (lookAt c target).up := by
  obtain ⟨d, r, hd, hr, hu, hdd, hrr, hrd⟩ := lookAt_basis c target h1 h2
  have hmid : cross (lookAt c target).up r = d := by
    rw [hu, cross_anticomm, cross_cross_self r d hrd hrr, vneg_neg]
  exact ⟨d, r, hd, hr, hmid, by rw [hmid]⟩

theorem projection_middle_column_is_direction_witness :
    ((⟨0, 0, 4⟩ : Vec3) - (Camera.init ⟨0, 0, 0⟩ ⟨0, 1, 0⟩ 1).position ≠ 0) ∧
    (cross ((⟨0, 0, 4⟩ : Vec3) - (Camera.init ⟨0, 0, 0⟩ ⟨0, 1, 0⟩ 1).position)
        (Camera.init ⟨0, 0, 0⟩ ⟨0, 1, 0⟩ 1).up ≠ 0) ∧
    (∃ d r, (lookAt (Camera.init ⟨0, 0, 0⟩ ⟨0, 1, 0⟩ 1) ⟨0, 0, 4⟩).direction = some d ∧
      (lookAt (Camera.init ⟨0, 0, 0⟩ ⟨0, 1, 0⟩ 1) ⟨0, 0, 4⟩).right = some r ∧
      cross (lookAt (Camera.init ⟨0, 0, 0⟩ ⟨0, 1, 0⟩ 1) ⟨0, 0, 4⟩).up r = d ∧
      colStack r (cross (lookAt (Camera.init ⟨0, 0, 0⟩ ⟨0, 1, 0⟩ 1) ⟨0, 0, 4⟩).up r)
          (lookAt (Camera.init ⟨0, 0, 0⟩ ⟨0, 1, 0⟩ 1) ⟨0, 0, 4⟩).up =
        colStack r d (lookAt (Camera.init ⟨0, 0, 0⟩ ⟨0, 1, 0⟩ 1) ⟨0, 0, 4⟩).up) := by
  have h1 : (⟨0, 0, 4⟩ : Vec3) - (Camera.init ⟨0, 0, 0⟩ ⟨0, 1, 0⟩ 1).position ≠ 0 := by
    simp [Vec3.ext_iff]
  have h2 : cross ((⟨0, 0, 4⟩ : Vec3) - (Camera.init ⟨0, 0, 0⟩ ⟨0, 1, 0⟩ 1).position)
      (Camera.init ⟨0, 0, 0⟩ ⟨0, 1, 0⟩ 1).up ≠ 0 := by
    simp [cross, Vec3.ext_iff]
  exact ⟨h1, h2, projection_middle_column_is_direction _ _ h1 h2⟩

lemma isAxisStep_norm (s : ℝ) (hs : 0 ≤ s) (d : Vec3) (h : IsAxisStep s d) :
    norm d = s := by
  have hd : dot d d = s * s := by
    rcases h with h | h | h | h | h | h <;> subst h <;> norm_num [dot]
  rw [norm, hd, Real.sqrt_mul_self hs]

lemma edge_step (s : ℝ) (hs : 0 ≤ s) (A B D : Vec3) (hD : B - A = D)
    (h : IsAxisStep s D) : IsAxisStep s (B - A) ∧ norm (B - A) = s := by
  rw [hD]
  exact ⟨h, isAxisStep_norm s hs D h⟩

/-- C8: the cube's vertex list has the 8 points `o + {0,s}³` (each coordinate is
`o_i` or `o_i + s`, and every such combination occurs), and the edge list has
exactly 12 entries, each a displacement of `±s` along a single axis (hence of
length `s`, and never joining diagonally opposite corners). -/
theorem cube_vertices_edges (o : Vec3) (s : ℝ) (hs : 0 < s) :
    (cubeVertices o s).length = 8 ∧
    (∀ v, v ∈ cubeVertices o s ↔
      ((v.x = o.x ∨ v.x = o.x + s) ∧ (v.y = o.y ∨ v.y = o.y + s) ∧
        (v.z = o.z ∨ v.z = o.z + s))) ∧
    (cubeEdges o s).length = 12 ∧
    (∀ e ∈ cubeEdges o s, IsAxisStep s (e.2 - e.1) ∧ norm (e.2 - e.1) = s) := by
  refine ⟨rfl, ?_, rfl, ?_⟩
  · intro v
    constructor
    · intro hv
      simp only [cubeVertices, List.mem_cons, List.not_mem_nil, or_false] at hv
      rcases hv with rfl | rfl | rfl | rfl | rfl | rfl | rfl | rfl <;> simp
    · rintro ⟨hx | hx, hy | hy, hz | hz⟩ <;>
        simp [cubeVertices, Vec3.ext_iff, hx, hy, hz]
  · intro e he
    simp only [cubeEdges, cubeEdgeIndices, cubeVertices, List.mem_map, List.mem_cons,
      List.not_mem_nil, or_false, List.getD_cons_zero, List.getD_cons_succ] at he
    obtain ⟨ij, hij, rfl⟩ := he
    rcases hij with rfl | rfl | rfl | rfl | rfl | rfl | rfl | rfl | rfl | rfl | rfl | rfl <;>
      simp only [List.getD_cons_zero, List.getD_cons_succ]
    · exact edge_step s hs.le _ _ ⟨s, 0, 0⟩ (by ext <;> simp) (Or.inl rfl)
    · exact edge_step s hs.le _ _ ⟨0, s, 0⟩ (by ext <;> simp) (Or.inr (Or.inr (Or.inl rfl)))
    · exact edge_step s hs.le _ _ ⟨0, 0, s⟩ (by ext <;> simp)
        (Or.inr (Or.inr (Or.inr (Or.inr (Or.inl rfl)))))
    · exact edge_step s hs.le _ _ ⟨0, s, 0⟩ (by ext <;> simp) (Or.inr (Or.inr (Or.inl rfl)))
    · exact edge_step s hs.le _ _ ⟨0, 0, s⟩ (by ext <;> simp)
        (Or.inr (Or.inr (Or.inr (Or.inr (Or.inl rfl)))))
    · exact edge_step s hs.le _ _ ⟨s, 0, 0⟩ (by ext <;> simp) (Or.inl rfl)
    · exact edge_step s hs.le _ _ ⟨0, 0, s⟩ (by ext <;> simp)
        (Or.inr (Or.inr (Or.inr (Or.inr (Or.inl rfl)))))
    · exact edge_step s hs.le _ _ ⟨s, 0, 0⟩ (by ext <;> simp) (Or.inl rfl)
    · exact edge_step s hs.le _ _ ⟨0, s, 0⟩ (by ext <;> simp) (Or.inr (Or.inr (Or.inl rfl)))
    · exact edge_step s hs.le _ _ ⟨0, 0, -s⟩ (by ext <;> simp)
        (Or.inr (Or.inr (Or.inr (Or.inr (Or.inr rfl)))))
    · exact edge_step s hs.le _ _ ⟨0, -s, 0⟩ (by ext <;> simp)
        (Or.inr (Or.inr (Or.inr (Or.inl rfl))))
    · exact edge_step s hs.le _ _ ⟨-s, 0, 0⟩ (by ext <;> simp) (Or.inr (Or.inl rfl))

theorem cube_vertices_edges_witness :
    (0 : ℝ) < 1 ∧
    ((cubeVertices ⟨0, 0, 0⟩ 1).length = 8 ∧
      (∀ v, v ∈ cubeVertices ⟨0, 0, 0⟩ 1 ↔
        ((v.x = (⟨0, 0, 0⟩ : Vec3).x ∨ v.x = (⟨0, 0, 0⟩ : Vec3).x + 1) ∧
          (v.y = (⟨0, 0, 0⟩ : Vec3).y ∨ v.y = (⟨0, 0, 0⟩ : Vec3).y + 1) ∧
          (v.z = (⟨0, 0, 0⟩ : Vec3).z ∨ v.z = (⟨0, 0, 0⟩ : Vec3).z + 1))) ∧
      (cubeEdges ⟨0, 0, 0⟩ 1).length = 12 ∧
      (∀ e ∈ cubeEdges ⟨0, 0, 0⟩ 1, IsAxisStep 1 (e.2 - e.1) ∧ norm (e.2 - e.1) = 1)) :=
  ⟨by norm_num, cube_vertices_edges ⟨0, 0, 0⟩ 1 (by norm_num)⟩

@[simp] lemma Vec4.mk4_x (a b c d : ℝ) : (Vec4.mk a b c d).x = a := rfl

@[simp] lemma Vec4.mk4_y (a b c d : ℝ) : (Vec4.mk a b c d).y = b := rfl

@[simp] lemma Vec4.mk4_z (a b c d : ℝ) : (Vec4.mk a b c d).z = c := rfl

@[simp] lemma Vec4.mk4_w (a b c d : ℝ) : (Vec4.mk a b c d).w = d := rfl

lemma planeTransform_zero_rotation (center : Vec3) (p : Vec4) :
    planeTransform center ⟨0, 0, 0⟩ p =
      ⟨p.x + center.x * p.w, p.y + center.y * p.w, p.z + center.z * p.w, p.w⟩ := by
  have h0 : radians 0 = 0 := by simp [radians]
  ext <;> simp [planeTransform, rotX, rotY, rotZ, translate, h0]

lemma mem_linspace (a b : ℝ) (n : ℕ) (v : ℝ) :
    v ∈ linspace a b n ↔ ∃ i, i < n ∧ v = a + (b - a) * i / ((n : ℝ) - 1) := by
  unfold linspace
  rw [List.mem_map]
  constructor
  · rintro ⟨i, hi, rfl⟩
    exact ⟨i, List.mem_range.mp hi, rfl⟩
  · rintro ⟨i, hi, rfl⟩
    exact ⟨i, List.mem_range.mpr hi, rfl⟩

lemma linspace_val_bounds (s : ℝ) (hs : 0 ≤ s) (n i : ℕ) (hi : i < n) :
    -s ≤ -s + (s - -s) * i / ((n : ℝ) - 1) ∧ -s + (s - -s) * i / ((n : ℝ) - 1) ≤ s := by
  rcases Nat.lt_or_ge n 2 with hn | hn
  · have hn1 : n = 1 := by omega
    have hi0 : i = 0 := by omega
    subst hn1
    subst hi0
    norm_num
    linarith
  · have h2 : (2 : ℝ) ≤ (n : ℝ) := by exact_mod_cast hn
    have hden : (0 : ℝ) < (n : ℝ) - 1 := by linarith
    have h2s : (0 : ℝ) ≤ s - -s := by linarith
    have hi' : (i : ℝ) ≤ (n : ℝ) - 1 := by
      have : ((i : ℝ) + 1) ≤ (n : ℝ) := by exact_mod_cast hi
      linarith
    have hfrac0 : 0 ≤ (s - -s) * i / ((n : ℝ) - 1) :=
      div_nonneg (mul_nonneg h2s (Nat.cast_nonneg i)) hden.le
    have hfrac1 : (s - -s) * i / ((n : ℝ) - 1) ≤ s - -s := by
      rw [div_le_iff₀ hden]
      have := mul_le_mul_of_nonneg_left hi' h2s
      linarith
    constructor <;> linarith

lemma linspace_mem_bounds (s : ℝ) (hs : 0 ≤ s) (n : ℕ) (v : ℝ)
    (hv : v ∈ linspace (-s) s n) : -s ≤ v ∧ v ≤ s := by
  rw [mem_linspace] at hv
  obtain ⟨i, hi, rfl⟩ := hv
  exact linspace_val_bounds s hs n i hi

lemma left_endpoint_mem (s : ℝ) (n : ℕ) (hn : 1 ≤ n) : -s ∈ linspace (-s) s n := by
  rw [mem_linspace]
  exact ⟨0, by omega, by norm_num⟩

lemma right_endpoint_mem (s : ℝ) (n : ℕ) (hn : 2 ≤ n) : s ∈ linspace (-s) s n := by
  rw [mem_linspace]
  refine ⟨n - 1, by omega, ?_⟩
  have hcast : ((n - 1 : ℕ) : ℝ) = (n : ℝ) - 1 := by
    have h1 : 1 ≤ n := by omega
    push_cast [h1]
    ring
  have hne : (n : ℝ) - 1 ≠ 0 := by
    have h2 : (2 : ℝ) ≤ (n : ℝ) := by exact_mod_cast hn
    intro h
    linarith
  rw [hcast, mul_div_assoc, div_self hne]
  ring

lemma mem_planeSurface_zero (center : Vec3) (scale : ℝ) (n : ℕ) (p : Vec3) :
    p ∈ planeSurface center ⟨0, 0, 0⟩ scale n ↔
      ∃ yv ∈ linspace (-scale) scale n, ∃ xv ∈ linspace (-scale) scale n,
        p = ⟨xv + center.x, yv + center.y, center.z⟩ := by
  simp only [planeSurface, List.mem_flatMap, List.mem_map, planeTransform_zero_rotation]
  constructor
  · rintro ⟨yv, hyv, xv, hxv, rfl⟩
    refine ⟨yv, hyv, xv, hxv, ?_⟩
    ext <;> simp
  · rintro ⟨yv, hyv, xv, hxv, rfl⟩
    refine ⟨yv, hyv, xv, hxv, ?_⟩
    ext <;> simp

/-- C9: a plane built with rotation `(0, 0, 0)` has all grid Z coordinates equal
to `center.z`, every X and Y coordinate within `[center − scale, center + scale]`
on the respective axis, and both interval endpoints attained (grid resolution at
least 2, non-negative scale). -/
theorem plane_zero_rotation_grid (center : Vec3) (scale : ℝ) (n : ℕ)
    (hn : 2 ≤ n) (hs : 0 ≤ scale) :
    (∀ p ∈ planeSurface center ⟨0, 0, 0⟩ scale n, p.z = center.z) ∧
    (∀ p ∈ planeSurface center ⟨0, 0, 0⟩ scale n,
      center.x - scale ≤ p.x ∧ p.x ≤ center.x + scale ∧
      center.y - scale ≤ p.y ∧ p.y ≤ center.y + scale) ∧
    (∃ p ∈ planeSurface center ⟨0, 0, 0⟩ scale n, p.x = center.x - scale) ∧
    (∃ p ∈ planeSurface center ⟨0, 0, 0⟩ scale n, p.x = center.x + scale) ∧
    (∃ p ∈ planeSurface center ⟨0, 0, 0⟩ scale n, p.y = center.y - scale) ∧
    (∃ p ∈ planeSurface center ⟨0, 0, 0⟩ scale n, p.y = center.y + scale) := by
  refine ⟨?_, ?_, ?_, ?_, ?_, ?_⟩
  · intro p hp
    obtain ⟨yv, _, xv, _, rfl⟩ := (mem_planeSurface_zero center scale n p).mp hp
    rfl
  · intro p hp
    obtain ⟨yv, hyv, xv, hxv, rfl⟩ := (mem_planeSurface_zero center scale n p).mp hp
    obtain ⟨hx1, hx2⟩ := linspace_mem_bounds scale hs n xv hxv
    obtain ⟨hy1, hy2⟩ := linspace_mem_bounds scale hs n yv hyv
    refine ⟨?_, ?_, ?_, ?_⟩ <;> simp only [Vec3.mk_x, Vec3.mk_y] <;> linarith
  · refine ⟨⟨-scale + center.x, -scale + center.y, center.z⟩, ?_, ?_⟩
    · rw [mem_planeSurface_zero]
      exact ⟨-scale, left_endpoint_mem scale n (by omega), -scale,
        left_endpoint_mem scale n (by omega), rfl⟩
    · simp only [Vec3.mk_x]
      ring
  · refine ⟨⟨scale + center.x, -scale + center.y, center.z⟩, ?_, ?_⟩
    · rw [mem_planeSurface_zero]
      exact ⟨-scale, left_endpoint_mem scale n (by omega), scale,
        right_endpoint_mem scale n hn, rfl⟩
    · simp only [Vec3.mk_x]
      ring
  · refine ⟨⟨-scale + center.x, -scale + center.y, center.z⟩, ?_, ?_⟩
    · rw [mem_planeSurface_zero]
      exact ⟨-scale, left_endpoint_mem scale n (by omega), -scale,
        left_endpoint_mem scale n (by omega), rfl⟩
    · simp only [Vec3.mk_y]
      ring
  · refine ⟨⟨-scale + center.x, scale + center.y, center.z⟩, ?_, ?_⟩
    · rw [mem_planeSurface_zero]
      exact ⟨scale, right_endpoint_mem scale n hn, -scale,
        left_endpoint_mem scale n (by omega), rfl⟩
    · simp only [Vec3.mk_y]
      ring

theorem plane_zero_rotation_grid_witness :
    (2 ≤ 10 ∧ (0 : ℝ) ≤ 5) ∧
    ((∀ p ∈ planeSurface ⟨1, 2, 3⟩ ⟨0, 0, 0⟩ 5 10, p.z = (⟨1, 2, 3⟩ : Vec3).z) ∧
     (∀ p ∈ planeSurface ⟨1, 2, 3⟩ ⟨0, 0, 0⟩ 5 10,
       (⟨1, 2, 3⟩ : Vec3).x - 5 ≤ p.x ∧ p.x ≤ (⟨1, 2, 3⟩ : Vec3).x + 5 ∧
       (⟨1, 2, 3⟩ : Vec3).y - 5 ≤ p.y ∧ p.y ≤ (⟨1, 2, 3⟩ : Vec3).y + 5) ∧
     (∃ p ∈ planeSurface ⟨1, 2, 3⟩ ⟨0, 0, 0⟩ 5 10, p.x = (⟨1, 2, 3⟩ : Vec3).x - 5) ∧
     (∃ p ∈ planeSurface ⟨1, 2, 3⟩ ⟨0, 0, 0⟩ 5 10, p.x = (⟨1, 2, 3⟩ : Vec3).x + 5) ∧
     (∃ p ∈ planeSurface ⟨1, 2, 3⟩ ⟨0, 0, 0⟩ 5 10, p.y = (⟨1, 2, 3⟩ : Vec3).y - 5) ∧
     (∃ p ∈ planeSurface ⟨1, 2, 3⟩ ⟨0, 0, 0⟩ 5 10, p.y = (⟨1, 2, 3⟩ : Vec3).y + 5)) :=
  ⟨⟨by norm_num, by norm_num⟩, plane_zero_rotation_grid ⟨1, 2, 3⟩ 5 10 (by norm_num) (by norm_num)⟩

/-- C9 (counterexample): a plane with rotation `(0, 0, 0)`, center `(0, 0, 0)`,
scale `5` and resolution `1` is a valid construction (resolution is positive),
but its grid is the single point `(-5, -5, 0)` — `np.linspace(-5, 5, 1) = [-5]` —
so the X coordinates never attain `center.x + scale`: the grid does not span the
full interval, refuting the claim as stated. -/
theorem plane_resolution_one_fails_span :
    planeSurface ⟨0, 0, 0⟩ ⟨0, 0, 0⟩ 5 1 = [⟨-5, -5, 0⟩] ∧
    ¬ ∃ p ∈ planeSurface ⟨0, 0, 0⟩ ⟨0, 0, 0⟩ 5 1, p.x = (⟨0, 0, 0⟩ : Vec3).x + 5 := by
  have hl : linspace (-5) 5 1 = [(-5 : ℝ)] := by
    norm_num [linspace, List.range_succ]
  have hsurf : planeSurface ⟨0, 0, 0⟩ ⟨0, 0, 0⟩ 5 1 = [⟨-5, -5, 0⟩] := by
    simp only [planeSurface, hl, List.flatMap_cons, List.map_cons, List.map_nil,
      List.flatMap_nil, List.append_nil, planeTransform_zero_rotation]
    norm_num [Vec3.ext_iff]
  refine ⟨hsurf, ?_⟩
  rw [hsurf]
  rintro ⟨p, hp, hx⟩
  simp only [List.mem_cons, List.not_mem_nil, or_false] at hp
  subst hp
  simp only [Vec3.mk_x] at hx
  norm_num at hx

end CV101
